import Mathlib

set_option maxRecDepth 20000

/-!
Verification of the GB/GBC RomChecker tool (src/RomChecker.py) against its
natural-language specification.  The Python source is shallowly embedded:
strings are `List Char` / `String`, the filesystem is an explicit association
list from path strings to byte lists, and each Python function becomes a
computable Lean definition with the same structure.
-/

namespace RomChecker

/-! ## Display-width engine

`wcswidth` models the source's fallback width function
(`sum(2 if ord(c) > 127 else 1 for c in s)`), used when the `wcwidth`
library is absent. -/

def charWidth (c : Char) : Nat := if 127 < c.toNat then 2 else 1

def wcswidth (s : List Char) : Nat := (s.map charWidth).sum

/-- `pad_to_display_width` from the source. -/
def pad_to_display_width (text : List Char) (target_width : Nat) : List Char :=
  if target_width ≤ wcswidth text then text
  else text ++ List.replicate (target_width - wcswidth text) ' '

/-- Split `text` into `(base, ext)` where `ext` runs from the last `'.'`,
but only when that suffix has length at most 8
(`if '.' in text and len(text) - text.rfind('.') <= 8`). -/
def splitTextExt (text : List Char) : List Char × List Char :=
  match text.reverse.findIdx? (fun c => c = '.') with
  | none => (text, [])
  | some j =>
    if j + 1 ≤ 8 then
      (text.take (text.length - (j + 1)), text.drop (text.length - (j + 1)))
    else (text, [])

def dots : List Char := ['.', '.', '.']

/-- The right-to-left tail loop: accumulate trailing characters of `base`
(passed reversed) without the accumulated width exceeding 4. -/
def tailLoop : List Char → List Char × Nat → List Char × Nat
  | [], st => st
  | c :: rest, (tl, tw) =>
    if 4 < tw + charWidth c then (tl, tw)
    else tailLoop rest (c :: tl, tw + charWidth c)

/-- The left-to-right greedy fill loop
(`for c in base: if c in tail: break; ...`). -/
def pfxLoop (tl : List Char) (pmax : Int) : List Char → List Char → List Char
  | [], pfx => pfx
  | c :: rest, pfx =>
    if c ∈ tl then pfx
    else if pmax < (wcswidth pfx : Int) + (charWidth c : Int) then pfx
    else pfxLoop tl pmax rest (pfx ++ [c])

/-- `leadsList p l` : `p` is an initial segment of `l`. -/
def leadsList : List Char → List Char → Bool
  | [], _ => true
  | _ :: _, [] => false
  | a :: as, b :: bs => a = b && leadsList as bs

/-- Python's substring test `p in l`. -/
def isSub (p l : List Char) : Bool := l.tails.any (fun t => leadsList p t)

/-- The "special case" fallback loop of the source
(`if not prefix and prefix_max_width > 0`). -/
def specialLoop (base tl : List Char) (pmax : Int) : List Char → List Char → List Char
  | [], pfx => pfx
  | c :: rest, pfx =>
    if isSub (pfx ++ [c]) base && isSub (pfx ++ [c] ++ tl) base then
      if (wcswidth (pfx ++ [c]) : Int) ≤ pmax then
        specialLoop base tl pmax rest (pfx ++ [c])
      else pfx
    else specialLoop base tl pmax rest pfx

/-- `truncate_to_display_width` from the source.  (The source also computes
a `tail_reserve_width = min(4 + ellipsis_width, max_width - ext_width)`
which it never uses; the dead binding is omitted here.) -/
def truncate_to_display_width (text : List Char) (max_width : Nat) : List Char :=
  if wcswidth text ≤ max_width then text
  else
    let be := splitTextExt text
    let base := be.1
    let ext := be.2
    let ext_width := wcswidth ext
    if max_width ≤ 3 + ext_width then dots ++ ext
    else
      let st := tailLoop base.reverse ([], 0)
      let tl := st.1
      let tail_width := st.2
      let used_width := tail_width + 3 + ext_width
      let pmax : Int := (max_width : Int) - (used_width : Int)
      let pfx0 := pfxLoop tl pmax base []
      let pfx :=
        if pfx0 = [] ∧ 0 < pmax then specialLoop base tl pmax base [] else pfx0
      pfx ++ dots ++ tl ++ ext

end RomChecker

namespace RomChecker

/-! ### Width-engine lemmas -/

theorem wcswidth_append (a b : List Char) :
    wcswidth (a ++ b) = wcswidth a + wcswidth b := by
  simp [wcswidth]

theorem wcswidth_cons (c : Char) (l : List Char) :
    wcswidth (c :: l) = charWidth c + wcswidth l := by
  simp [wcswidth]

theorem tailLoop_invariant (l : List Char) :
    ∀ tl tw, wcswidth tl = tw → tw ≤ 4 →
      wcswidth (tailLoop l (tl, tw)).1 = (tailLoop l (tl, tw)).2 ∧
        (tailLoop l (tl, tw)).2 ≤ 4 := by
  induction l with
  | nil => intro tl tw h1 h2; exact ⟨h1, h2⟩
  | cons c rest ih =>
    intro tl tw h1 h2
    by_cases hc : 4 < tw + charWidth c
    · rw [tailLoop, if_pos hc]; exact ⟨h1, h2⟩
    · rw [tailLoop, if_neg hc]
      exact ih (c :: tl) (tw + charWidth c)
        (by rw [wcswidth_cons, h1]; omega) (by omega)

theorem pfxLoop_width (tl : List Char) (pmax : Int) (l : List Char) :
    ∀ pfx, (wcswidth pfx : Int) ≤ max 0 pmax →
      (wcswidth (pfxLoop tl pmax l pfx) : Int) ≤ max 0 pmax := by
  induction l with
  | nil => intro pfx h; simpa [pfxLoop] using h
  | cons c rest ih =>
    intro pfx h
    by_cases hmem : c ∈ tl
    · rw [pfxLoop, if_pos hmem]; exact h
    · by_cases hw : pmax < (wcswidth pfx : Int) + (charWidth c : Int)
      · rw [pfxLoop, if_neg hmem, if_pos hw]; exact h
      · rw [pfxLoop, if_neg hmem, if_neg hw]
        apply ih
        have hle : (wcswidth pfx : Int) + (charWidth c : Int) ≤ pmax := le_of_not_lt hw
        have hwc : wcswidth (pfx ++ [c]) = wcswidth pfx + charWidth c := by
          rw [wcswidth_append]; simp [wcswidth]
        rw [hwc]
        push_cast
        exact le_trans hle (le_max_right 0 pmax)

theorem specialLoop_width (base tl : List Char) (pmax : Int) (l : List Char) :
    ∀ pfx, (wcswidth pfx : Int) ≤ max 0 pmax →
      (wcswidth (specialLoop base tl pmax l pfx) : Int) ≤ max 0 pmax := by
  induction l with
  | nil => intro pfx h; simpa [specialLoop] using h
  | cons c rest ih =>
    intro pfx h
    rw [specialLoop]
    by_cases hs : (isSub (pfx ++ [c]) base && isSub (pfx ++ [c] ++ tl) base) = true
    · rw [if_pos hs]
      by_cases hw : (wcswidth (pfx ++ [c]) : Int) ≤ pmax
      · rw [if_pos hw]
        exact ih _ (le_trans hw (le_max_right 0 pmax))
      · rw [if_neg hw]; exact h
    · rw [if_neg hs]
      exact ih pfx h

theorem splitTextExt_suffix (text : List Char) :
    (splitTextExt text).2 <:+ text := by
  unfold splitTextExt
  cases h : text.reverse.findIdx? (fun c => c = '.') with
  | none => simp
  | some j =>
    by_cases hj : j + 1 ≤ 8
    · simp [hj]; exact List.drop_suffix _ _
    · simp [hj]

theorem wcswidth_dots : wcswidth dots = 3 := by decide

/-- C1 (amended form).  `truncate_to_display_width` always returns a string
ending in the detected extension, and its display width is at most
`max w (7 + extWidth)`: the width bound `w` can be exceeded not only when
ellipsis + extension alone exceed `w` (the documented exception), but more
generally when ellipsis + the reserved up-to-4-cell tail + extension exceed
`w`, because the source never applies its computed `tail_reserve_width`. -/
theorem truncate_to_display_width_spec (text : List Char) (w : Nat) :
    wcswidth (truncate_to_display_width text w) ≤
        max w (7 + wcswidth (splitTextExt text).2) ∧
      (splitTextExt text).2 <:+ truncate_to_display_width text w := by
  unfold truncate_to_display_width
  by_cases h1 : wcswidth text ≤ w
  · rw [if_pos h1]
    exact ⟨le_trans h1 (le_max_left _ _), splitTextExt_suffix text⟩
  · rw [if_neg h1]
    rcases hsp : splitTextExt text with ⟨base, ext⟩
    dsimp only
    by_cases h2 : w ≤ 3 + wcswidth ext
    · rw [if_pos h2]
      constructor
      · rw [wcswidth_append, wcswidth_dots]
        exact le_trans (by omega) (le_max_right w (7 + wcswidth ext))
      · exact ⟨dots, rfl⟩
    · rw [if_neg h2]
      rcases hst : tailLoop base.reverse ([], 0) with ⟨tl, tw⟩
      dsimp only
      have htl : wcswidth tl = tw ∧ tw ≤ 4 := by
        have h := tailLoop_invariant base.reverse [] 0 (by decide) (by decide)
        rw [hst] at h
        exact h
      set pmax : Int := (w : Int) - ((tw + 3 + wcswidth ext : Nat) : Int) with hpmax
      have hpfx :
          (wcswidth
            (if pfxLoop tl pmax base [] = [] ∧ 0 < pmax then
              specialLoop base tl pmax base []
            else pfxLoop tl pmax base []) : Int) ≤ max 0 pmax := by
        by_cases hc : pfxLoop tl pmax base [] = [] ∧ 0 < pmax
        · rw [if_pos hc]
          exact specialLoop_width base tl pmax base [] (by simp [wcswidth])
        · rw [if_neg hc]
          exact pfxLoop_width tl pmax base [] (by simp [wcswidth])
      have h3 := htl.1
      have h4 := htl.2
      constructor
      · rw [wcswidth_append, wcswidth_append, wcswidth_append, wcswidth_dots]
        set wp := wcswidth (if pfxLoop tl pmax base [] = [] ∧ 0 < pmax then
            specialLoop base tl pmax base [] else pfxLoop tl pmax base []) with hwp
        rcases le_or_lt pmax 0 with hle | hlt
        · rw [max_eq_left hle] at hpfx
          have hz : wp = 0 := by exact_mod_cast le_antisymm hpfx (Int.ofNat_nonneg _)
          rw [hz]
          refine le_trans ?_ (le_max_right w (7 + wcswidth ext))
          omega
        · rw [max_eq_right (le_of_lt hlt)] at hpfx
          refine le_trans ?_ (le_max_left w (7 + wcswidth ext))
          rw [hpmax] at hpfx
          omega
      · exact ⟨_ ++ dots ++ tl, rfl⟩

/-- C1 counterexample: for `"abcdefgh.gb"` at width 7, ellipsis + extension
fit (3 + 3 ≤ 7), yet the result `"...efgh.gb"` has display width 10 > 7 —
so the claimed "only exception" is not the only one. -/
theorem truncate_to_display_width_counterexample :
    wcswidth (truncate_to_display_width ("abcdefgh.gb".toList) 7) = 10 ∧
      3 + wcswidth (splitTextExt ("abcdefgh.gb".toList)).2 ≤ 7 := by decide

end RomChecker

namespace RomChecker

/-! ## Filesystem model

The filesystem is an association list from full path strings to byte
contents.  `fsWrite` overwrites, `fsRename` moves a file
(`Path.rename`). -/

structure FS where
  files : List (String × List Nat)
deriving DecidableEq

def emptyFS : FS := ⟨[]⟩

def fsRead (fs : FS) (p : String) : Option (List Nat) :=
  (fs.files.find? (fun e => e.1 == p)).map (fun e => e.2)

def fsExists (fs : FS) (p : String) : Bool := (fsRead fs p).isSome

def fsWrite (fs : FS) (p : String) (d : List Nat) : FS :=
  ⟨(p, d) :: fs.files.filter (fun e => e.1 != p)⟩

def fsRemove (fs : FS) (p : String) : FS :=
  ⟨fs.files.filter (fun e => e.1 != p)⟩

def fsRename (fs : FS) (src dst : String) : FS :=
  match fsRead fs src with
  | none => fs
  | some d => fsWrite (fsRemove fs src) dst d

/-! ## Path helpers (POSIX separators, as produced by `zipfile` and
`pathlib` on the paths the tool builds). -/

/-- `Path(dir) / name`. -/
def pjoin (dir name : String) : String := dir ++ "/" ++ name

/-- `os.path.basename` / `Path.name`: the part after the last `'/'`. -/
def basename (s : String) : String :=
  String.mk ((s.data.reverse.takeWhile (fun c => c ≠ '/')).reverse)

/-- index of the last occurrence of `c` (Python `str.rfind`),
`none` when absent. -/
def rlastIdx (cs : List Char) (c : Char) : Option Nat :=
  match cs.reverse.findIdx? (fun x => x = c) with
  | none => none
  | some j => some (cs.length - 1 - j)

/-- `PurePath.suffix`: extension of the final component
(`name[i:]` when `0 < i < len(name) - 1` for `i = name.rfind('.')`). -/
def pathSuffix (p : String) : String :=
  let nm := (basename p).data
  match rlastIdx nm '.' with
  | none => ""
  | some i => if 0 < i ∧ i < nm.length - 1 then String.mk (nm.drop i) else ""

/-- `os.path.splitext` on a basename: split at the last dot, unless all
characters before it are dots. -/
def splitext (s : String) : String × String :=
  let cs := s.data
  match rlastIdx cs '.' with
  | none => (s, "")
  | some i =>
    if (cs.take i).any (fun c => c ≠ '.') then
      (String.mk (cs.take i), String.mk (cs.drop i))
    else (s, "")

/-- Python `str.lower` (ASCII case mapping, which covers every string the
tool compares). -/
def pyLowerStr (s : String) : String := String.mk (s.data.map Char.toLower)

/-- `l` ends with `p`. -/
def endsList (l p : List Char) : Bool := leadsList p.reverse l.reverse

/-- `n.lower().endswith(('.gb', '.gbc'))`. -/
def nameMatches (n : String) : Bool :=
  endsList (pyLowerStr n).data ".gb".data || endsList (pyLowerStr n).data ".gbc".data

/-! ## ROM classifier (`detect_gb_type`, `check_rom`) -/

/-- `detect_gb_type`: open the file, seek to `0x143`, read one byte.
A missing/unreadable file is a read failure (`fsRead = none`); a file of
length ≤ 0x143 gives an empty read (`get? = none`); both yield `none`. -/
def detect_gb_type (fs : FS) (rom_path : String) : Option String :=
  match fsRead fs rom_path with
  | none => none
  | some data =>
    match data[0x143]? with
    | none => none
    | some v =>
      if v = 0x00 then some "GB"
      else if v = 0x80 ∨ v = 0xC0 then some "GBC"
      else none

/-- `".gb" if t == "GB" else ".gbc"`. -/
def expectedExt (t : String) : String := if t = "GB" then ".gb" else ".gbc"

/-- `check_rom`: statuses are the source's literal symbols
(`"✅"` OK, `"❌"` MISMATCH, `"⚠️"` UNKNOWN). -/
def check_rom (fs : FS) (rom_path display_name : String) :
    String × String × String :=
  match detect_gb_type fs rom_path with
  | none => (display_name, "⚠️", "?")
  | some t =>
    let cur_ext := pyLowerStr (pathSuffix rom_path)
    let exp_ext := expectedExt t
    if cur_ext = exp_ext then (display_name, "✅", "")
    else (display_name, "❌", exp_ext)

/-! ### Concrete ROM images used as test inputs: 323 zero bytes followed by
one header byte at offset 0x143. -/

def romImage (b : Nat) : List Nat := List.replicate 323 0 ++ [b]

end RomChecker

namespace RomChecker

/-! ### Classifier theorems -/

/-- C5.  `detect_gb_type` maps a missing/unreadable file to Unknown, an
empty read (file shorter than 0x144 bytes) to Unknown, byte `0x00` at
offset 0x143 to GB, `0x80`/`0xC0` to GBC, anything else to Unknown, and
its result depends only on the single byte at offset 0x143. -/
theorem detect_gb_type_spec (fs : FS) (p : String) :
    (fsRead fs p = none → detect_gb_type fs p = none) ∧
      (∀ d, fsRead fs p = some d → d.length ≤ 0x143 →
        detect_gb_type fs p = none) ∧
      (∀ d b, fsRead fs p = some d → d[0x143]? = some b →
        detect_gb_type fs p =
          (if b = 0x00 then some "GB"
           else if b = 0x80 ∨ b = 0xC0 then some "GBC"
           else none)) ∧
      (∀ fs2 p2 d d2, fsRead fs p = some d → fsRead fs2 p2 = some d2 →
        d[0x143]? = d2[0x143]? →
        detect_gb_type fs p = detect_gb_type fs2 p2) := by
  refine ⟨?_, ?_, ?_, ?_⟩
  · intro h; simp [detect_gb_type, h]
  · intro d hd hlen
    have hn : d[0x143]? = none := List.getElem?_eq_none hlen
    simp [detect_gb_type, hd, hn]
  · intro d b hd hb
    simp [detect_gb_type, hd, hb]
  · intro fs2 p2 d d2 hd hd2 hsame
    simp only [detect_gb_type, hd, hd2, hsame]

/-- C5 witness. -/
theorem detect_gb_type_spec_witness :
    detect_gb_type emptyFS "x.gb" = none ∧
      detect_gb_type ⟨[("a.gb", romImage 0x00)]⟩ "a.gb" = some "GB" ∧
      detect_gb_type ⟨[("b.gb", romImage 0xC0)]⟩ "b.gb" = some "GBC" ∧
      detect_gb_type ⟨[("c.gb", [0x00])]⟩ "c.gb" = none := by
  refine ⟨(detect_gb_type_spec emptyFS "x.gb").1 rfl, ?_, ?_, ?_⟩
  · have h := (detect_gb_type_spec ⟨[("a.gb", romImage 0x00)]⟩ "a.gb").2.2.1
      (romImage 0x00) 0x00 (by rfl) (by decide)
    simpa using h
  · have h := (detect_gb_type_spec ⟨[("b.gb", romImage 0xC0)]⟩ "b.gb").2.2.1
      (romImage 0xC0) 0xC0 (by rfl) (by decide)
    simpa using h
  · exact (detect_gb_type_spec ⟨[("c.gb", [0x00])]⟩ "c.gb").2.1 [0x00] rfl (by decide)

/-- C4 counterexample: a file whose header byte is `0x55` yields the
verdict `(name, "⚠️", "?")` — the suggested-extension field is the
placeholder `"?"`, not the empty string the claim states. -/
theorem check_rom_unknown_counterexample :
    check_rom ⟨[("x.gb", romImage 0x55)]⟩ "x.gb" "x.gb" = ("x.gb", "⚠️", "?") ∧
      check_rom ⟨[("x.gb", romImage 0x55)]⟩ "x.gb" "x.gb" ≠ ("x.gb", "⚠️", "") := by
  decide

/-- C4 (amended form).  Whenever the detected header type is Unknown,
`check_rom` returns `(displayName, "⚠️", "?")` — the suggested-extension
field is the placeholder `"?"`, regardless of the file's extension. -/
theorem check_rom_unknown (fs : FS) (p disp : String)
    (h : detect_gb_type fs p = none) :
    check_rom fs p disp = (disp, "⚠️", "?") := by
  simp [check_rom, h]

/-- C4 witness. -/
theorem check_rom_unknown_witness :
    check_rom emptyFS "y.gbc" "y.gbc" = ("y.gbc", "⚠️", "?") :=
  check_rom_unknown emptyFS "y.gbc" "y.gbc" rfl

/-- C6.  When the detected type is GB or GBC, `check_rom` compares the
file's extension case-insensitively with the expected one (`GB → ".gb"`,
`GBC → ".gbc"`): equal gives `("✅", "")`, different gives
`("❌", expected)`. -/
theorem check_rom_typed (fs : FS) (p disp t : String)
    (h : detect_gb_type fs p = some t) :
    (pyLowerStr (pathSuffix p) = expectedExt t →
        check_rom fs p disp = (disp, "✅", "")) ∧
      (pyLowerStr (pathSuffix p) ≠ expectedExt t →
        check_rom fs p disp = (disp, "❌", expectedExt t)) := by
  constructor
  · intro he; simp [check_rom, h, he]
  · intro he; simp [check_rom, h, he]

/-- C6 witness: header byte `0x00` with extension `.gb` is OK with empty
suggestion; header byte `0xC0` with extension `.gb` is MISMATCH with
suggestion `.gbc`. -/
theorem check_rom_typed_witness :
    check_rom ⟨[("a.gb", romImage 0x00)]⟩ "a.gb" "a.gb" = ("a.gb", "✅", "") ∧
      check_rom ⟨[("b.gb", romImage 0xC0)]⟩ "b.gb" "b.gb" =
        ("b.gb", "❌", ".gbc") :=
  ⟨(check_rom_typed ⟨[("a.gb", romImage 0x00)]⟩ "a.gb" "a.gb" "GB"
      (by decide)).1 (by decide),
    (check_rom_typed ⟨[("b.gb", romImage 0xC0)]⟩ "b.gb" "b.gb" "GBC"
      (by decide)).2 (by decide)⟩

end RomChecker

namespace RomChecker

/-! ## Deflate-zip collector (`extract_gb_gbc_from_zip`,
`collect_from_archive`'s zip branch)

A zip archive is its ordered entry list (`zf.namelist()` order).
`zf.extract(name, out_dir)` writes the entry's bytes to `out_dir/name`
(preserving any sub-path inside the entry name), overwriting an existing
file; `Path.rename` then moves the extracted file to the deduplicated
target.  The model covers the exception-free executions; the
`except`-wrapper branch returning `"Zip 提取失败: ..."` is not exercised
by any claim. -/

structure ZipEntry where
  name : String
  data : List Nat
deriving DecidableEq

structure ZipFile where
  entries : List ZipEntry
deriving DecidableEq

/-- The `while out_path.exists(): out_path = f"{stem}_{counter}{suffix}"`
loop; `fuel` bounds the iterations (the caller passes more candidates than
there are files, so the bound is never the reason the loop stops). -/
def dedupLoop (fs : FS) (out_dir stem sfx : String) :
    String → Nat → Nat → String
  | cand, _, 0 => cand
  | cand, counter, fuel + 1 =>
    if fsExists fs (pjoin out_dir cand) then
      dedupLoop fs out_dir stem sfx
        (stem ++ "_" ++ toString counter ++ sfx) (counter + 1) fuel
    else cand

/-- Target filename for one entry: start from the entry's basename and,
while a file of that name exists in `out_dir`, suffix `_1`, `_2`, …
before the extension. -/
def chooseTarget (fs : FS) (out_dir filename : String) : String :=
  let se := splitext filename
  dedupLoop fs out_dir se.1 se.2 filename 1 (fs.files.length + 1)

/-- Process one zip entry: pick the target name, extract to
`out_dir/name`, then rename to the target if different.  Returns the new
filesystem and the collected target path. -/
def extractEntry (out_dir : String) (fs : FS) (e : ZipEntry) : FS × String :=
  let filename := basename e.name
  let target := chooseTarget fs out_dir filename
  let extractedP := pjoin out_dir e.name
  let targetP := pjoin out_dir target
  let fs1 := fsWrite fs extractedP e.data
  let fs2 := if extractedP ≠ targetP then fsRename fs1 extractedP targetP else fs1
  (fs2, targetP)

/-- The `for name in gb_files` loop, appending each collected path. -/
def extractLoop (out_dir : String) :
    List ZipEntry → FS → List String → FS × List String
  | [], fs, acc => (fs, acc)
  | e :: rest, fs, acc =>
    let r := extractEntry out_dir fs e
    extractLoop out_dir rest r.1 (acc ++ [r.2])

/-- `extract_gb_gbc_from_zip`: filter entries whose lowered name ends in
`.gb`/`.gbc`; if none, report `"压缩包内无 .gb/.gbc"`; otherwise extract
each in order. -/
def extract_gb_gbc_from_zip (zf : ZipFile) (out_dir : String) (fs : FS) :
    List String × String × FS :=
  let gb_files := zf.entries.filter (fun e => nameMatches e.name)
  if gb_files.isEmpty then ([], "压缩包内无 .gb/.gbc", fs)
  else
    let r := extractLoop out_dir gb_files fs []
    (r.2, "成功", r.1)

/-- The zip branch of `collect_from_archive`
(`roms = [(f, f.name) for f in files]`): the display name is the
*on-disk* file's name, i.e. the basename of the collected path. -/
def collect_from_archive_zip (zf : ZipFile) (tmp_subdir : String) (fs : FS) :
    List (String × String) × FS :=
  let r := extract_gb_gbc_from_zip zf tmp_subdir fs
  if r.1.isEmpty then ([], r.2.2)
  else (r.1.map (fun f => (f, basename f)), r.2.2)

end RomChecker

namespace RomChecker

/-! ### Filesystem and path lemmas -/

theorem strAppend_left_cancel {s a b : String} (h : s ++ a = s ++ b) : a = b := by
  have hd : s.data ++ a.data = s.data ++ b.data := by
    have hc := congrArg String.data h
    simpa [String.data_append] using hc
  have hab := List.append_cancel_left hd
  cases a; cases b
  exact congrArg String.mk hab

theorem pjoin_inj (dir : String) : Function.Injective (pjoin dir) := by
  intro a b h
  exact strAppend_left_cancel h

theorem basename_no_slash (s : String) : '/' ∉ (basename s).data := by
  intro hmem
  simp only [basename] at hmem
  rw [List.mem_reverse] at hmem
  have := List.mem_takeWhile_imp hmem
  simp at this

theorem basename_eq_self {s : String} (h : '/' ∉ s.data) : basename s = s := by
  have ht : s.data.reverse.takeWhile (fun c => decide (c ≠ '/')) = s.data.reverse := by
    apply List.takeWhile_eq_self_iff.mpr
    intro c hc
    rw [List.mem_reverse] at hc
    simp only [decide_eq_true_eq]
    intro hcs
    exact h (hcs ▸ hc)
  simp only [basename, ht, List.reverse_reverse]

theorem fsExists_iff (fs : FS) (p : String) :
    fsExists fs p = true ↔ ∃ d, (p, d) ∈ fs.files := by
  unfold fsExists fsRead
  cases hf : fs.files.find? (fun e => e.1 == p) with
  | none =>
    simp only [hf, Option.map_none', Option.isSome_none, Bool.false_eq_true,
      false_iff]
    rintro ⟨d, hmem⟩
    have hpd := List.find?_eq_none.mp hf (p, d) hmem
    simp at hpd
  | some e =>
    simp only [hf, Option.map_some', Option.isSome_some, true_iff]
    have hmem := List.mem_of_find?_eq_some hf
    have hp := List.find?_some hf
    simp only [beq_iff_eq] at hp
    exact ⟨e.2, by rw [← hp]; exact hmem⟩

theorem fsExists_write (fs : FS) (p q : String) (d : List Nat) :
    fsExists (fsWrite fs p d) q = true ↔ q = p ∨ fsExists fs q = true := by
  simp only [fsExists_iff, fsWrite, List.mem_cons, List.mem_filter]
  constructor
  · rintro ⟨d', hd'⟩
    rcases hd' with heq | ⟨hmem, hne⟩
    · left; exact congrArg Prod.fst heq
    · right; exact ⟨d', hmem⟩
  · rintro (heq | ⟨d', hmem⟩)
    · exact ⟨d, Or.inl (by rw [heq])⟩
    · by_cases hqp : q = p
      · exact ⟨d, Or.inl (by rw [hqp])⟩
      · exact ⟨d', Or.inr ⟨hmem, by simpa [bne_iff_ne] using hqp⟩⟩

theorem fsRead_write_self (fs : FS) (p : String) (d : List Nat) :
    fsRead (fsWrite fs p d) p = some d := by
  simp [fsRead, fsWrite, List.find?]

theorem fsExists_remove (fs : FS) (p q : String) :
    fsExists (fsRemove fs p) q = true ↔ fsExists fs q = true ∧ q ≠ p := by
  simp only [fsExists_iff, fsRemove, List.mem_filter]
  constructor
  · rintro ⟨d, hmem, hne⟩
    exact ⟨⟨d, hmem⟩, by simpa [bne_iff_ne] using hne⟩
  · rintro ⟨⟨d, hmem⟩, hne⟩
    exact ⟨d, hmem, by simpa [bne_iff_ne] using hne⟩

theorem fsExists_rename (fs : FS) (src dst q : String) (d : List Nat)
    (h : fsRead fs src = some d) :
    fsExists (fsRename fs src dst) q = true ↔
      q = dst ∨ (fsExists fs q = true ∧ q ≠ src) := by
  simp only [fsRename, h]
  rw [fsExists_write, fsExists_remove]

end RomChecker

namespace RomChecker

/-! ### Zip-collector theorems -/

/-- Every result of the dedup loop is either the starting candidate or of
the form `stem ++ "_" ++ N ++ suffix` for some `N ≥ counter`. -/
theorem dedupLoop_form (fs : FS) (out stem sfx : String) :
    ∀ (fuel : Nat) (cand : String) (counter : Nat),
      dedupLoop fs out stem sfx cand counter fuel = cand ∨
        ∃ N, counter ≤ N ∧
          dedupLoop fs out stem sfx cand counter fuel =
            stem ++ "_" ++ toString N ++ sfx := by
  intro fuel
  induction fuel with
  | zero => intro cand counter; left; rfl
  | succ fuel ih =>
    intro cand counter
    rw [dedupLoop]
    by_cases hex : fsExists fs (pjoin out cand) = true
    · rw [if_pos hex]
      rcases ih (stem ++ "_" ++ toString counter ++ sfx) (counter + 1) with h | ⟨N, hN, h⟩
      · right; exact ⟨counter, le_refl _, h⟩
      · right; exact ⟨N, by omega, h⟩
    · rw [if_neg hex]; left; rfl

theorem splitext_concat (s : String) : (splitext s).1 ++ (splitext s).2 = s := by
  unfold splitext
  dsimp only
  rcases h : rlastIdx s.data '.' with _ | i
  · simp [String.append_empty]
  · dsimp only
    by_cases ha : ((s.data.take i).any (fun c => c ≠ '.')) = true
    · rw [if_pos ha]
      show String.mk (s.data.take i ++ s.data.drop i) = s
      rw [List.take_append_drop]
    · rw [if_neg ha]
      simp [String.append_empty]

/-- When the first candidate is free, the loop returns it at once. -/
theorem dedupLoop_first_free (fs : FS) (out stem sfx cand : String)
    (counter fuel : Nat) (h : fsExists fs (pjoin out cand) = false) :
    dedupLoop fs out stem sfx cand counter (fuel + 1) = cand := by
  rw [dedupLoop, if_neg (by simp [h])]

/-- Core induction for distinct-basename archives: starting from a
filesystem whose files are exactly `done`'s targets, the loop appends
exactly `pjoin out ∘ basename` of each entry, in order. -/
theorem extractLoop_distinct (out : String) :
    ∀ (entries : List ZipEntry) (fs : FS) (acc done : List String),
      (∀ q, fsExists fs q = true ↔ q ∈ done.map (pjoin out)) →
      (∀ b ∈ done, '/' ∉ b.data) →
      ((done ++ entries.map (fun e => basename e.name)).Nodup) →
      (extractLoop out entries fs acc).2 =
        acc ++ (entries.map (fun e => basename e.name)).map (pjoin out) := by
  intro entries
  induction entries with
  | nil => intro fs acc done _ _ _; simp [extractLoop]
  | cons e rest ih =>
    intro fs acc done hfs hslash hnd
    have hbnotin : basename e.name ∉ done := by
      intro hmem
      rw [List.nodup_append] at hnd
      exact hnd.2.2 hmem (by simp)
    have hfree : fsExists fs (pjoin out (basename e.name)) = false := by
      rw [Bool.eq_false_iff]
      intro htrue
      rw [hfs] at htrue
      rcases List.mem_map.mp htrue with ⟨b, hb, hpb⟩
      exact hbnotin ((pjoin_inj out hpb) ▸ hb)
    have htarget : chooseTarget fs out (basename e.name) = basename e.name := by
      unfold chooseTarget
      exact dedupLoop_first_free fs out _ _ _ 1 fs.files.length hfree
    rw [extractLoop]
    have hstep :
        extractEntry out fs e =
          (if pjoin out e.name ≠ pjoin out (basename e.name) then
            fsRename (fsWrite fs (pjoin out e.name) e.data)
              (pjoin out e.name) (pjoin out (basename e.name))
          else fsWrite fs (pjoin out e.name) e.data,
          pjoin out (basename e.name)) := by
      unfold extractEntry
      dsimp only
      rw [htarget]
    rw [hstep]
    dsimp only
    have hnewfs : ∀ q,
        fsExists (if pjoin out e.name ≠ pjoin out (basename e.name) then
            fsRename (fsWrite fs (pjoin out e.name) e.data)
              (pjoin out e.name) (pjoin out (basename e.name))
          else fsWrite fs (pjoin out e.name) e.data) q = true ↔
          q ∈ (done ++ [basename e.name]).map (pjoin out) := by
      intro q
      have hmemgoal : q ∈ (done ++ [basename e.name]).map (pjoin out) ↔
          q = pjoin out (basename e.name) ∨ q ∈ done.map (pjoin out) := by
        simp [or_comm]
      by_cases hne : pjoin out e.name ≠ pjoin out (basename e.name)
      · rw [if_pos hne]
        rw [fsExists_rename _ _ _ _ e.data (fsRead_write_self fs _ e.data)]
        rw [fsExists_write, hmemgoal, hfs]
        constructor
        · rintro (h | ⟨(h | h), hq⟩)
          · exact Or.inl h
          · exact absurd h hq
          · exact Or.inr h
        · rintro (h | h)
          · exact Or.inl h
          · refine Or.inr ⟨Or.inr h, ?_⟩
            rcases List.mem_map.mp h with ⟨b, hb, hpb⟩
            intro hq
            apply hbnotin
            have hname : b = e.name := pjoin_inj out (hq ▸ hpb)
            rw [← hname, basename_eq_self (hslash b hb)]
            exact hb
      · rw [if_neg hne]
        push_neg at hne
        have hnameeq : e.name = basename e.name := pjoin_inj out hne
        rw [fsExists_write, hfs, hmemgoal, ← hnameeq]
    have hslash2 : ∀ b ∈ done ++ [basename e.name], '/' ∉ b.data := by
      intro b hb
      rcases List.mem_append.mp hb with h | h
      · exact hslash b h
      · rw [List.mem_singleton.mp h]
        exact basename_no_slash e.name
    have hnd2 : ((done ++ [basename e.name]) ++
        rest.map (fun e => basename e.name)).Nodup := by
      rw [List.append_assoc]
      simpa using hnd
    rw [ih _ _ _ hnewfs hslash2 hnd2]
    simp

/-- C10 (amended).  In the zip collector: (a) every target filename is
either the entry's basename or the basename's stem suffixed `_N` (`N ≥ 1`)
followed by its `splitext` extension, so each target still ends in that
extension; (b) the loop increments `N` until the candidate does not exist;
and (c) when the matching entries' basenames are pairwise distinct the
collected target paths are pairwise distinct.  (Pairwise distinctness can
fail in general — see the counterexample — because extracting a later
entry can overwrite-and-rename away an earlier target.) -/
theorem zip_dedup_spec (out : String) :
    (∀ (fs : FS) (filename : String),
        chooseTarget fs out filename = filename ∨
          ∃ N, 1 ≤ N ∧ chooseTarget fs out filename =
            (splitext filename).1 ++ "_" ++ toString N ++ (splitext filename).2) ∧
      (∀ (fs : FS) (filename : String),
        (splitext filename).2.data <:+ (chooseTarget fs out filename).data) ∧
      (∀ zf : ZipFile,
        ((zf.entries.filter (fun e => nameMatches e.name)).map
            (fun e => basename e.name)).Nodup →
          (extract_gb_gbc_from_zip zf out emptyFS).1.Nodup) := by
  have hform : ∀ (fs : FS) (filename : String),
      chooseTarget fs out filename = filename ∨
        ∃ N, 1 ≤ N ∧ chooseTarget fs out filename =
          (splitext filename).1 ++ "_" ++ toString N ++ (splitext filename).2 := by
    intro fs filename
    unfold chooseTarget
    exact dedupLoop_form fs out (splitext filename).1 (splitext filename).2
      (fs.files.length + 1) filename 1
  refine ⟨hform, ?_, ?_⟩
  · intro fs filename
    rcases hform fs filename with h | ⟨N, _, h⟩
    · rw [h]
      have := splitext_concat filename
      refine ⟨(splitext filename).1.data, ?_⟩
      rw [← String.data_append, this]
    · rw [h]
      exact ⟨((splitext filename).1 ++ "_" ++ toString N).data,
        by simp [String.data_append]⟩
  · intro zf hnd
    unfold extract_gb_gbc_from_zip
    by_cases hemp : (zf.entries.filter (fun e => nameMatches e.name)).isEmpty = true
    · simp [hemp]
    · simp only [hemp, if_false, Bool.false_eq_true]
      have h := extractLoop_distinct out
        (zf.entries.filter (fun e => nameMatches e.name)) emptyFS [] []
        (by intro q; simp [fsExists, fsRead, emptyFS, List.find?])
        (by intro b hb; simp at hb)
        (by simpa using hnd)
      rw [h]
      simpa using hnd.map (pjoin_inj out)

/-- C10 counterexample: the archive `[sub/a.gb, a.gb, dir/a.gb]` produces
target paths `[T/a.gb, T/a_1.gb, T/a.gb]` — not pairwise distinct — because
extracting the second entry overwrites `T/a.gb` and renames it away,
freeing the name for the third entry. -/
theorem zip_dedup_counterexample :
    (extract_gb_gbc_from_zip
        ⟨[⟨"sub/a.gb", [1]⟩, ⟨"a.gb", [2]⟩, ⟨"dir/a.gb", [3]⟩]⟩ "T" emptyFS).1 =
      ["T/a.gb", "T/a_1.gb", "T/a.gb"] ∧
    ¬ (extract_gb_gbc_from_zip
        ⟨[⟨"sub/a.gb", [1]⟩, ⟨"a.gb", [2]⟩, ⟨"dir/a.gb", [3]⟩]⟩ "T" emptyFS).1.Nodup := by
  decide

/-- C2 counterexample: for the archive `[a.gb, sub/a.gb]`, the collector
reports display names `["a.gb", "a_1.gb"]` — the second entry's display
name is the *renamed* on-disk filename, not the original basename `a.gb`
the claim states. -/
theorem zip_display_counterexample :
    ((collect_from_archive_zip ⟨[⟨"a.gb", [1]⟩, ⟨"sub/a.gb", [2]⟩]⟩ "T"
        emptyFS).1.map (fun r => r.2)) = ["a.gb", "a_1.gb"] ∧
      ("a_1.gb" : String) ≠ "a.gb" := by
  decide

/-- C2 (amended).  For the archive with entries `a.gb` then `sub/a.gb`
(any contents), the zip collector extracts both without data loss into two
distinct files `a.gb` and `a_1.gb` of the archive's subdirectory, and
reports each ROM's display name as its on-disk filename: `a.gb` for the
first and the collision-renamed `a_1.gb` (never archive-prefixed) for the
second. -/
theorem zip_same_basename_spec (d1 d2 : List Nat) :
    (extract_gb_gbc_from_zip ⟨[⟨"a.gb", d1⟩, ⟨"sub/a.gb", d2⟩]⟩ "T"
        emptyFS).1 = ["T/a.gb", "T/a_1.gb"] ∧
      fsRead (extract_gb_gbc_from_zip ⟨[⟨"a.gb", d1⟩, ⟨"sub/a.gb", d2⟩]⟩ "T"
        emptyFS).2.2 "T/a.gb" = some d1 ∧
      fsRead (extract_gb_gbc_from_zip ⟨[⟨"a.gb", d1⟩, ⟨"sub/a.gb", d2⟩]⟩ "T"
        emptyFS).2.2 "T/a_1.gb" = some d2 ∧
      (collect_from_archive_zip ⟨[⟨"a.gb", d1⟩, ⟨"sub/a.gb", d2⟩]⟩ "T"
        emptyFS).1 = [("T/a.gb", "a.gb"), ("T/a_1.gb", "a_1.gb")] :=
  ⟨rfl, rfl, rfl, rfl⟩

/-- C3 is violated by the code: for the archive with entries `sub/a.gb`
then `a.gb`, the first collected path `T/a.gb` no longer exists once
extraction finishes (extracting the second entry overwrote it and renamed
it away), so verification on it yields UNKNOWN. -/
theorem zip_collected_path_missing :
    (extract_gb_gbc_from_zip ⟨[⟨"sub/a.gb", [1]⟩, ⟨"a.gb", [2]⟩]⟩ "T"
        emptyFS).1 = ["T/a.gb", "T/a_1.gb"] ∧
      fsRead (extract_gb_gbc_from_zip ⟨[⟨"sub/a.gb", [1]⟩, ⟨"a.gb", [2]⟩]⟩ "T"
        emptyFS).2.2 "T/a.gb" = none ∧
      check_rom (extract_gb_gbc_from_zip ⟨[⟨"sub/a.gb", [1]⟩, ⟨"a.gb", [2]⟩]⟩
        "T" emptyFS).2.2 "T/a.gb" "a.gb" = ("a.gb", "⚠️", "?") := by
  decide

/-- C10 witness. -/
theorem zip_dedup_spec_witness :
    (chooseTarget emptyFS "T" "a.gb" = "a.gb" ∨
        ∃ N, 1 ≤ N ∧ chooseTarget emptyFS "T" "a.gb" =
          (splitext "a.gb").1 ++ "_" ++ toString N ++ (splitext "a.gb").2) ∧
      (splitext "a.gb").2.data <:+ (chooseTarget emptyFS "T" "a.gb").data ∧
      (extract_gb_gbc_from_zip ⟨[⟨"x/a.gb", [1]⟩, ⟨"b.gb", [2]⟩]⟩ "T"
          emptyFS).1.Nodup :=
  ⟨(zip_dedup_spec "T").1 emptyFS "a.gb",
    (zip_dedup_spec "T").2.1 emptyFS "a.gb",
    (zip_dedup_spec "T").2.2 ⟨[⟨"x/a.gb", [1]⟩, ⟨"b.gb", [2]⟩]⟩ (by decide)⟩

end RomChecker

namespace RomChecker

/-! ## 7z-family collector (`extract_gb_gbc_with_7za`)

The external extraction utility is a collaborator; its invocation is
modelled by its observable outcome: either `subprocess.run` completed with
an exit code and captured stdout/stderr, or it timed out
(`subprocess.TimeoutExpired`), or some other exception was raised.  On
completion the utility has already populated `out_dir`, so the function
also receives the post-extraction filesystem. -/

structure RunCompleted where
  returncode : Int
  stdout : String
  stderr : String
deriving DecidableEq

inductive RunOutcome where
  | completed (r : RunCompleted)
  | timedOut
  | raised (msg : String)
deriving DecidableEq

/-- `"No files to process" in s`. -/
def containsNoFiles (s : String) : Bool :=
  isSub ("No files to process".data) s.data

/-- Python `s[:n]`. -/
def pyTake (s : String) (n : Nat) : String := String.mk (s.data.take n)

/-- Python `str.strip()` (ASCII whitespace). -/
def pyStrip (s : String) : String := s.trim

/-- `'/' `-free tail test: `p` is directly inside `dir`. -/
def isDirectChild (dir p : String) : Bool :=
  leadsList (dir.data ++ ['/']) p.data &&
    !((p.data.drop (dir.data.length + 1)).contains '/')

/-- `for f in Path(out_dir).iterdir(): if f.is_file() and
f.suffix.lower() in ('.gb', '.gbc')`. -/
def listRomFiles (fs : FS) (out_dir : String) : List String :=
  fs.files.filterMap (fun e =>
    if isDirectChild out_dir e.1 &&
        (pyLowerStr (pathSuffix e.1) == ".gb" ||
          pyLowerStr (pathSuffix e.1) == ".gbc") then
      some e.1
    else none)

/-- `extract_gb_gbc_with_7za`, as a function of the tool's presence and
the invocation outcome. -/
def extract_gb_gbc_with_7za (toolOk : Bool) (outcome : RunOutcome)
    (fs : FS) (out_dir : String) : List String × String :=
  if !toolOk then ([], "❌ 未找到 7za.exe")
  else
    match outcome with
    | .timedOut => ([], "超时")
    | .raised msg => ([], "异常: " ++ msg)
    | .completed r =>
      if containsNoFiles r.stderr || containsNoFiles r.stdout then
        ([], "压缩包内无 .gb/.gbc")
      else if r.returncode ≠ 0 then
        let err :=
          pyTake (if pyStrip r.stderr ≠ "" then pyStrip r.stderr
                  else pyStrip r.stdout) 80
        ([], "提取失败: " ++ err)
      else
        let roms := listRomFiles fs out_dir
        (roms, if roms.isEmpty then "未找到 .gb/.gbc" else "成功")

/-! ## Folder collector (`collect_from_folder`)

`os.walk` output is modelled as the list of discovered files, each given
by the directory components below the scanned root plus the bare
filename.  The path separator is POSIX `'/'`. -/

/-- `str(rel).replace(os.sep, '→')`. -/
def sepToArrow (s : String) : String :=
  String.mk (s.data.map (fun c => if c = '/' then '→' else c))

/-- `p.relative_to(folder)`: strip the `folder ++ "/"` leading part;
`none` models the raised `ValueError` when `p` is not below `folder`. -/
def relative_to (p folder : String) : Option String :=
  if leadsList (folder.data ++ ['/']) p.data then
    some (String.mk (p.data.drop (folder.data.length + 1)))
  else none

/-- The `try: disp = str(rel).replace(os.sep, '→') except: disp = f`
logic. -/
def mkFolderDisp (relOpt : Option String) (f : String) : String :=
  match relOpt with
  | some rel => sepToArrow rel
  | none => f

/-- `Path(root) / f` for a file at components `comps` under `folder`. -/
def pathOfEntry (folder : String) (comps : List String) (f : String) :
    String :=
  pjoin folder (String.intercalate "/" (comps ++ [f]))

/-- `collect_from_folder` over the walked file list. -/
def collect_from_folder (folder : String)
    (walked : List (List String × String)) : List (String × String) :=
  walked.filterMap (fun e =>
    if nameMatches e.2 then
      let p := pathOfEntry folder e.1 e.2
      some (p, mkFolderDisp (relative_to p folder) e.2)
    else none)

/-! ## Verification scheduler

`main` submits one `check_rom` task per collected ROM to a bounded thread
pool and appends one result per completed future; completion order is an
arbitrary permutation of the submission list. -/

/-- Collect `future.result()` for each completed task, in completion
order. -/
def run_verification (fs : FS) (completed : List (String × String)) :
    List (String × String × String) :=
  completed.map (fun r => check_rom fs r.1 r.2)

end RomChecker

namespace RomChecker

/-! ### 7z-collector, folder-collector and scheduler theorems -/

/-- C7.  `extract_gb_gbc_with_7za` classifies the utility's outcome and
always returns a list and a status: "no matching entries" output gives an
empty list with the non-error status `压缩包内无 .gb/.gbc`; a non-zero
exit code gives a failure whose diagnostic excerpt has at most 80
characters; a timeout gives the timeout failure; any other exception is
wrapped. -/
theorem seven_za_outcome_spec (fs : FS) (out : String) :
    (∀ r : RunCompleted,
        (containsNoFiles r.stderr || containsNoFiles r.stdout) = true →
        extract_gb_gbc_with_7za true (.completed r) fs out =
          ([], "压缩包内无 .gb/.gbc")) ∧
      (∀ r : RunCompleted,
        (containsNoFiles r.stderr || containsNoFiles r.stdout) = false →
        r.returncode ≠ 0 →
        ∃ excerpt, extract_gb_gbc_with_7za true (.completed r) fs out =
            ([], "提取失败: " ++ excerpt) ∧ excerpt.length ≤ 80) ∧
      extract_gb_gbc_with_7za true .timedOut fs out = ([], "超时") ∧
      (∀ msg, extract_gb_gbc_with_7za true (.raised msg) fs out =
        ([], "异常: " ++ msg)) := by
  refine ⟨?_, ?_, rfl, fun msg => rfl⟩
  · intro r h
    simp [extract_gb_gbc_with_7za, h]
  · intro r h hrc
    refine ⟨pyTake (if pyStrip r.stderr ≠ "" then pyStrip r.stderr
        else pyStrip r.stdout) 80, ?_, ?_⟩
    · simp [extract_gb_gbc_with_7za, h, hrc]
    · show ((if pyStrip r.stderr ≠ "" then pyStrip r.stderr
        else pyStrip r.stdout).data.take 80).length ≤ 80
      exact List.length_take_le _ _

/-- C7 witness. -/
theorem seven_za_outcome_spec_witness :
    extract_gb_gbc_with_7za true
        (.completed ⟨0, "No files to process", ""⟩) emptyFS "T" =
      ([], "压缩包内无 .gb/.gbc") ∧
    (∃ excerpt, extract_gb_gbc_with_7za true
        (.completed ⟨2, "", "Cannot open archive"⟩) emptyFS "T" =
      ([], "提取失败: " ++ excerpt) ∧ excerpt.length ≤ 80) ∧
    extract_gb_gbc_with_7za true .timedOut emptyFS "T" = ([], "超时") ∧
    extract_gb_gbc_with_7za true (.raised "oops") emptyFS "T" =
      ([], "异常: " ++ "oops") :=
  ⟨(seven_za_outcome_spec emptyFS "T").1 ⟨0, "No files to process", ""⟩
      (by decide),
    (seven_za_outcome_spec emptyFS "T").2.1 ⟨2, "", "Cannot open archive"⟩
      (by decide) (by decide),
    (seven_za_outcome_spec emptyFS "T").2.2.1,
    (seven_za_outcome_spec emptyFS "T").2.2.2 "oops"⟩

theorem leadsList_append (a b : List Char) : leadsList a (a ++ b) = true := by
  induction a with
  | nil => rfl
  | cons c rest ih => simp [leadsList, ih]

/-- C8.  Every walked file whose name ends case-insensitively in a ROM
extension is collected with display name equal to its root-relative path
with each path separator replaced by `'→'`; and when computing the
relative path fails, the display falls back to the bare filename. -/
theorem folder_display_spec (folder : String)
    (walked : List (List String × String)) (comps : List String) (f : String)
    (hm : (comps, f) ∈ walked) (he : nameMatches f = true) :
    (pathOfEntry folder comps f,
        sepToArrow (String.intercalate "/" (comps ++ [f]))) ∈
      collect_from_folder folder walked ∧
    ∀ g, mkFolderDisp none g = g := by
  refine ⟨?_, fun g => rfl⟩
  apply List.mem_filterMap.mpr
  refine ⟨(comps, f), hm, ?_⟩
  have hdata : (pathOfEntry folder comps f).data =
      (folder.data ++ ['/']) ++ (String.intercalate "/" (comps ++ [f])).data := by
    simp [pathOfEntry, pjoin, String.data_append]
  have hrel : relative_to (pathOfEntry folder comps f) folder =
      some (String.intercalate "/" (comps ++ [f])) := by
    unfold relative_to
    rw [if_pos (by rw [hdata]; exact leadsList_append _ _)]
    congr 1
    rw [hdata]
    have hlen : (folder.data ++ ['/']).length = folder.data.length + 1 := by
      simp
    rw [← hlen, List.drop_left]
  simp only [he, if_true, mkFolderDisp, hrel]

/-- C8 witness: the tree `root/x/y.gb` yields display name `x→y.gb`. -/
theorem folder_display_spec_witness :
    (pathOfEntry "root" ["x"] "y.gb",
        sepToArrow (String.intercalate "/" (["x"] ++ ["y.gb"]))) ∈
      collect_from_folder "root" [(["x"], "y.gb")] ∧
    ∀ g, mkFolderDisp none g = g :=
  folder_display_spec "root" [(["x"], "y.gb")] ["x"] "y.gb" (by simp)
    (by decide)

/-- C9.  The scheduler produces exactly one verdict per collected ROM with
no deduplication: whatever completion order the pool yields (any
permutation of the submission list), the collected results are a
permutation of mapping `check_rom` sequentially over the list, and there
are exactly as many verdicts as ROMs. -/
theorem run_verification_perm (fs : FS)
    (all_roms completed : List (String × String))
    (h : completed.Perm all_roms) :
    (run_verification fs completed).Perm
        (all_roms.map (fun r => check_rom fs r.1 r.2)) ∧
      (run_verification fs completed).length = all_roms.length := by
  constructor
  · exact h.map _
  · simpa [run_verification] using h.length_eq

/-- C9 witness. -/
theorem run_verification_perm_witness :
    (run_verification emptyFS [("b.gb", "b.gb"), ("a.gb", "a.gb")]).Perm
        ([("a.gb", "a.gb"), ("b.gb", "b.gb")].map
          (fun r => check_rom emptyFS r.1 r.2)) ∧
      (run_verification emptyFS
          [("b.gb", "b.gb"), ("a.gb", "a.gb")]).length = 2 :=
  run_verification_perm emptyFS [("a.gb", "a.gb"), ("b.gb", "b.gb")]
    [("b.gb", "b.gb"), ("a.gb", "a.gb")] (by decide)

end RomChecker
